import Mathlib

/-!
Verification of the real-time audio analysis core of `mp3_audio_analyzer`.

This file gives a shallow embedding, in Lean, of the components of the
repository that the specification's testable properties talk about:

* `RingBuffer` — the lock-free SPSC ring buffer of `include/ring_buffer.h`,
  modelled as a functional state machine.  The `size_t` cursors are modelled
  as natural numbers reduced modulo `2^64` (`wordSize`), so that the unsigned
  wraparound arithmetic of the C++ code (`head_ - tail_`,
  `capacity_ - (head - tail)`) is reproduced exactly by `usub`.
* the analysis math of `src/analysis_thread.cpp` (`CalculateRms`,
  `CalculateStereoCorrelation`, `CalculateBandwidth`,
  `CalculateAverageBandwidth`), with C++ `float` values modelled as real
  numbers; the accumulation loops become `List.foldl` over `List.range`.
* `AnalysisData` of `src/analysis_data.cpp`, whose mutex-guarded `Set`/`Get`
  are modelled as atomic whole-record operations on a serialized history.
* the `AudioPipeline::Run` loop of `src/audio_pipeline.cpp`, modelled as a
  recursion over the list of decoder reads with oracle functions for the
  device-output results and external stop requests.
-/

/-- `2 ^ 64`: one past the largest `size_t` value on the 64-bit target.
The ring-buffer cursors are `std::atomic<size_t>` and all cursor arithmetic
in the C++ code is performed modulo this constant. -/
def wordSize : Nat := 18446744073709551616

/-- Unsigned (`size_t`) subtraction `a - b` modulo `2 ^ 64`, as performed by
the C++ expressions `head - tail` and `capacity_ - (head - tail)`. -/
def usub (a b : Nat) : Nat := (a + (wordSize - b % wordSize)) % wordSize

/-- The state of `RingBuffer<T>` (include/ring_buffer.h): the backing vector
`buffer_`, the producer cursor `head_`, the consumer cursor `tail_` and
`capacity_`.  Cursor values are kept `< wordSize`. -/
structure RingBuffer (α : Type) where
  buffer : List α
  head : Nat
  tail : Nat
  capacity : Nat
  deriving DecidableEq

namespace RingBuffer

variable {α : Type}

/-- The default-constructed ring buffer: empty vector, both cursors zero,
capacity zero.  `Initialize` must be called right after construction. -/
def mk0 : RingBuffer α := ⟨[], 0, 0, 0⟩

/-- `std::vector::resize` from an arbitrary list: keep the first `n`
elements and value-initialize the rest. -/
def listResize [Inhabited α] (l : List α) (n : Nat) : List α :=
  l.take n ++ List.replicate (n - l.length) default

/-- `RingBuffer::Initialize(capacity)`: fails iff `capacity` is zero or
`capacity & (capacity - 1) != 0`; on success stores the capacity and resizes
the backing vector. -/
def Initialize [Inhabited α] (s : RingBuffer α) (capacity : Nat) :
    RingBuffer α × Bool :=
  if capacity = 0 ∨ capacity &&& (capacity - 1) ≠ 0 then (s, false)
  else ({ s with capacity := capacity,
                 buffer := listResize s.buffer capacity }, true)

/-- `std::copy_n(src, src.length, dst + pos)` on a functional list: write the
elements of `src` into `buf` at consecutive positions starting at `pos`. -/
def copyInto : List α → Nat → List α → List α
  | buf, _, [] => buf
  | buf, pos, x :: xs => copyInto (buf.set pos x) (pos + 1) xs

/-- `RingBuffer::Push(data, count)`.  `data = none` models a null pointer.
Returns the new state and the boolean result.  The free-space computation,
the masked write index and the two `copy_n` chunks follow the C++ line by
line; the cursor advance is reduced modulo `wordSize` as for `size_t`. -/
def Push (s : RingBuffer α) (data : Option (List α)) (count : Nat) :
    RingBuffer α × Bool :=
  match data with
  | none => (s, false)
  | some d =>
    if count = 0 then (s, false)
    else
      let head := s.head
      let tail := s.tail
      let free_space := usub s.capacity (usub head tail)
      if count > free_space then (s, false)
      else
        let index := head &&& (s.capacity - 1)
        let first_copy_count := min count (s.capacity - index)
        let buf1 := copyInto s.buffer index (d.take first_copy_count)
        let buf2 := copyInto buf1 0 ((d.take count).drop first_copy_count)
        ({ s with buffer := buf2,
                  head := (head + count) % wordSize }, true)

/-- The contiguous segment `buf[pos .. pos+n)`, i.e. what
`std::copy_n(&buf[pos], n, dest)` transfers. -/
def subList (l : List α) (pos n : Nat) : List α := (l.drop pos).take n

/-- `RingBuffer::Pop(dest, count)`.  `destNull` models a null destination
pointer.  Returns the new state and `some` of the elements copied out on
success, `none` on failure. -/
def Pop (s : RingBuffer α) (destNull : Bool) (count : Nat) :
    RingBuffer α × Option (List α) :=
  if destNull then (s, none)
  else if count = 0 then (s, none)
  else
    let tail := s.tail
    let head := s.head
    let used := usub head tail
    if count > used then (s, none)
    else
      let index := tail &&& (s.capacity - 1)
      let first_copy_count := min count (s.capacity - index)
      let out := subList s.buffer index first_copy_count ++
                 subList s.buffer 0 (count - first_copy_count)
      ({ s with tail := (tail + count) % wordSize }, some out)

/-- `RingBuffer::Size()`: the unsigned difference `head_ - tail_`. -/
def Size (s : RingBuffer α) : Nat := usub s.head s.tail

/-- `RingBuffer::Empty()`: `Size() == 0`. -/
def Empty (s : RingBuffer α) : Bool := Size s == 0

/-- `RingBuffer::Full()`: `Size() == capacity_`. -/
def Full (s : RingBuffer α) : Bool := Size s == s.capacity

/-- State invariant of an initialized ring buffer: the backing store has
length `capacity`, the capacity is a nonzero power of two (expressed by the
same bit test the code uses) below `2^64`, both cursors are `size_t` values,
and the unsigned cursor difference is at most the capacity. -/
def Inv (s : RingBuffer α) : Prop :=
  s.buffer.length = s.capacity ∧
  0 < s.capacity ∧
  s.capacity &&& (s.capacity - 1) = 0 ∧
  s.capacity < wordSize ∧
  s.head < wordSize ∧
  s.tail < wordSize ∧
  usub s.head s.tail ≤ s.capacity

instance (s : RingBuffer α) : Decidable (Inv s) := by
  unfold Inv; exact inferInstance

/-- The abstract queue contents: the `Size s` elements between the read and
write cursors, in FIFO order. -/
def queueContents [Inhabited α] (s : RingBuffer α) : List α :=
  (List.range (usub s.head s.tail)).map fun i =>
    s.buffer.getD ((s.tail + i) % s.capacity) default

end RingBuffer

/-! ### Power-of-two arithmetic for the capacity bit test -/

theorem land_pred_of_pow2 (k : Nat) : 2 ^ k &&& (2 ^ k - 1) = 0 := by
  have h := Nat.and_pow_two_sub_one_eq_mod (2 ^ k) k
  simp only [Nat.mod_self] at h
  exact h

theorem pow2_of_land_pred (n : Nat) (hn : n ≠ 0) (h : n &&& (n - 1) = 0) :
    ∃ k, n = 2 ^ k := by
  induction n using Nat.strong_induction_on with
  | _ n ih =>
    rcases Nat.even_or_odd n with he | ho
    · obtain ⟨m, hm⟩ := he
      have hmn : n = 2 * m := by omega
      have hm0 : m ≠ 0 := by omega
      have hbit : n = Nat.bit false m := by simp [Nat.bit_val]; omega
      have hbit' : n - 1 = Nat.bit true (m - 1) := by
        simp [Nat.bit_val]; omega
      rw [hbit', hbit, Nat.land_bit] at h
      have hm' : m &&& (m - 1) = 0 := by
        simp [Nat.bit_val] at h
        omega
      obtain ⟨k, hk⟩ := ih m (by omega) hm0 hm'
      exact ⟨k + 1, by rw [hmn, hk, pow_succ]; ring⟩
    · obtain ⟨m, hm⟩ := ho
      rcases Nat.eq_zero_or_pos m with hm0 | hm0
      · exact ⟨0, by omega⟩
      · exfalso
        have hbit : n = Nat.bit true m := by simp [Nat.bit_val]; omega
        have hbit' : n - 1 = Nat.bit false m := by simp [Nat.bit_val]; omega
        rw [hbit', hbit, Nat.land_bit] at h
        simp [Nat.bit_val, Nat.and_self] at h
        omega

theorem land_pred_iff_pow2 (n : Nat) (hn : n ≠ 0) :
    n &&& (n - 1) = 0 ↔ ∃ k, n = 2 ^ k := by
  constructor
  · exact pow2_of_land_pred n hn
  · rintro ⟨k, rfl⟩; exact land_pred_of_pow2 k

/-- For a power-of-two capacity, the masked index computed by the code,
`cursor & (capacity - 1)`, is the cursor reduced modulo the capacity. -/
theorem land_mask_eq_mod (a k : Nat) : a &&& (2 ^ k - 1) = a % 2 ^ k :=
  Nat.and_pow_two_sub_one_eq_mod a k

/-! ### `size_t` wraparound arithmetic -/

theorem wordSize_pos : 0 < wordSize := by simp [wordSize]

theorem usub_lt_wordSize (a b : Nat) : usub a b < wordSize := by
  simp only [usub, wordSize]; omega

theorem usub_self_eq_zero (a : Nat) : usub a a = 0 := by
  simp only [usub, wordSize]; omega

theorem usub_zero_right (a : Nat) (ha : a < wordSize) : usub a 0 = a := by
  simp only [usub, wordSize] at *; omega

/-- Advancing the producer cursor by `c` (as `size_t`) grows the unsigned
cursor difference by `c`, as long as the new difference does not overflow. -/
theorem usub_advance_head (h t c : Nat) (hh : h < wordSize)
    (hc : usub h t + c < wordSize) :
    usub ((h + c) % wordSize) t = usub h t + c := by
  simp only [usub, wordSize] at *; omega

/-- Advancing the consumer cursor by `c` (as `size_t`) shrinks the unsigned
cursor difference by `c`, as long as at least `c` elements are available. -/
theorem usub_advance_tail (h t c : Nat) (ht : t < wordSize)
    (hc : c ≤ usub h t) :
    usub h ((t + c) % wordSize) = usub h t - c := by
  simp only [usub, wordSize] at *; omega

/-- The producer cursor is congruent to `tail + (head - tail)` modulo the
word size. -/
theorem add_usub_mod_wordSize (h t : Nat) (hh : h < wordSize)
    (ht : t < wordSize) : (t + usub h t) % wordSize = h % wordSize := by
  simp only [usub, wordSize] at *; omega

/-- ... and hence modulo any divisor of the word size, in particular modulo a
power-of-two capacity. -/
theorem add_usub_mod_capacity (h t C : Nat) (hh : h < wordSize)
    (ht : t < wordSize) (hC : C ∣ wordSize) :
    (t + usub h t) % C = h % C :=
  Nat.ModEq.of_dvd hC (add_usub_mod_wordSize h t hh ht)

/-- A power-of-two capacity below `2^64` divides `2^64`. -/
theorem capacity_dvd_wordSize (k : Nat) (hk : 2 ^ k < wordSize) :
    (2 ^ k : Nat) ∣ wordSize := by
  have h64 : wordSize = 2 ^ 64 := by norm_num [wordSize]
  have hk64 : k ≤ 64 := by
    by_contra hgt
    have : (2:Nat) ^ 64 < 2 ^ k := by
      exact Nat.pow_lt_pow_right (by norm_num) (by omega)
    omega
  rw [h64]
  exact Nat.pow_dvd_pow 2 hk64

theorem usub_eq_sub (a b : Nat) (ha : a < wordSize) (hba : b ≤ a) :
    usub a b = a - b := by
  simp only [usub, wordSize] at *; omega

/-! ### Pointwise characterization of the buffer writes -/

theorem getD_set_ne {α : Type} (l : List α) (i j : Nat) (x d : α)
    (h : i ≠ j) : (l.set i x).getD j d = l.getD j d := by
  simp [List.getD_eq_getElem?_getD, List.getElem?_set, h]

theorem getD_set_eq {α : Type} (l : List α) (i : Nat) (x d : α)
    (h : i < l.length) : (l.set i x).getD i d = x := by
  simp [List.getD_eq_getElem?_getD, List.getElem?_set, h]

theorem getD_take {α : Type} (l : List α) (n j : Nat) (d : α) (h : j < n) :
    (l.take n).getD j d = l.getD j d := by
  simp [List.getD_eq_getElem?_getD, List.getElem?_take, h]

theorem getD_drop {α : Type} (l : List α) (i j : Nat) (d : α) :
    (l.drop i).getD j d = l.getD (i + j) d := by
  simp [List.getD_eq_getElem?_getD, List.getElem?_drop]

namespace RingBuffer

theorem copyInto_length (src : List α) :
    ∀ (buf : List α) (pos : Nat), (copyInto buf pos src).length = buf.length := by
  induction src with
  | nil => intro buf pos; rfl
  | cons x xs ih =>
      intro buf pos
      simp only [copyInto, ih, List.length_set]

theorem copyInto_getD_lt (src : List α) :
    ∀ (buf : List α) (pos q : Nat) (d : α), q < pos →
      (copyInto buf pos src).getD q d = buf.getD q d := by
  induction src with
  | nil => intro buf pos q d _; rfl
  | cons x xs ih =>
      intro buf pos q d hq
      simp only [copyInto]
      rw [ih _ _ _ _ (by omega), getD_set_ne _ _ _ _ _ (by omega)]

theorem copyInto_getD_ge (src : List α) :
    ∀ (buf : List α) (pos q : Nat) (d : α), pos + src.length ≤ q →
      (copyInto buf pos src).getD q d = buf.getD q d := by
  induction src with
  | nil => intro buf pos q d _; rfl
  | cons x xs ih =>
      intro buf pos q d hq
      simp only [List.length_cons] at hq
      simp only [copyInto]
      rw [ih _ _ _ _ (by omega), getD_set_ne _ _ _ _ _ (by omega)]

theorem copyInto_getD_mid (src : List α) :
    ∀ (buf : List α) (pos j : Nat) (d : α), j < src.length →
      pos + j < buf.length →
      (copyInto buf pos src).getD (pos + j) d = src.getD j d := by
  induction src with
  | nil => intro buf pos j d h _; simp at h
  | cons x xs ih =>
      intro buf pos j d hj hlt
      match j with
      | 0 =>
          simp only [copyInto, Nat.add_zero, List.getD_cons_zero]
          rw [copyInto_getD_lt _ _ _ _ _ (by omega),
              getD_set_eq _ _ _ _ (by omega)]
      | Nat.succ j' =>
          simp only [copyInto, List.getD_cons_succ]
          have hstep : pos + (j' + 1) = (pos + 1) + j' := by omega
          have hj' : j' < xs.length := by
            simp only [List.length_cons] at hj; omega
          have hlt' : (pos + 1) + j' < (buf.set pos x).length := by
            simp only [List.length_set]; omega
          rw [hstep, ih _ _ _ _ hj' hlt']

theorem Push_some_eq (s : RingBuffer α) (d : List α) (count : Nat)
    (h0 : count ≠ 0)
    (hfree : ¬ count > usub s.capacity (usub s.head s.tail)) :
    Push s (some d) count =
      ({ s with
          buffer := copyInto
            (copyInto s.buffer (s.head &&& (s.capacity - 1))
              (d.take (min count (s.capacity - (s.head &&& (s.capacity - 1))))))
            0
            ((d.take count).drop
              (min count (s.capacity - (s.head &&& (s.capacity - 1))))),
          head := (s.head + count) % wordSize }, true) := by
  simp [Push, h0, hfree]

theorem Pop_some_eq (s : RingBuffer α) (count : Nat)
    (h0 : count ≠ 0)
    (havail : ¬ count > usub s.head s.tail) :
    Pop s false count =
      ({ s with tail := (s.tail + count) % wordSize },
       some (subList s.buffer (s.tail &&& (s.capacity - 1))
               (min count (s.capacity - (s.tail &&& (s.capacity - 1)))) ++
             subList s.buffer 0
               (count - min count
                 (s.capacity - (s.tail &&& (s.capacity - 1)))))) := by
  simp [Pop, h0, havail]

end RingBuffer

namespace RingBuffer

variable {α : Type}

/-- Full characterization of a successful `Push`: the result is `true`, the
write cursor advances by `count` (mod `2^64`), the read cursor and capacity
are unchanged, the backing store keeps its length, the `count` elements are
written at positions `(write_cursor mod capacity) + j mod capacity`, and all
other positions are untouched. -/
theorem push_success_spec [Inhabited α] (s : RingBuffer α) (d : List α)
    (count : Nat) (hInv : s.Inv) (hcd : count ≤ d.length) (h0 : 0 < count)
    (hfree : count ≤ s.capacity - usub s.head s.tail) :
    (Push s (some d) count).2 = true ∧
    (Push s (some d) count).1.head = (s.head + count) % wordSize ∧
    (Push s (some d) count).1.tail = s.tail ∧
    (Push s (some d) count).1.capacity = s.capacity ∧
    (Push s (some d) count).1.buffer.length = s.capacity ∧
    (∀ j, j < count →
      (Push s (some d) count).1.buffer.getD
        ((s.head % s.capacity + j) % s.capacity) default = d.getD j default) ∧
    (∀ p, p < s.capacity →
      (∀ j, j < count → (s.head % s.capacity + j) % s.capacity ≠ p) →
      (Push s (some d) count).1.buffer.getD p default
        = s.buffer.getD p default) := by
  obtain ⟨hlen, hC0, hland, hCW, hhW, htW, hle⟩ := hInv
  obtain ⟨k, hk⟩ := pow2_of_land_pred s.capacity (by omega) hland
  have hfree' : usub s.capacity (usub s.head s.tail)
      = s.capacity - usub s.head s.tail := usub_eq_sub _ _ hCW hle
  have hnotgt : ¬ count > usub s.capacity (usub s.head s.tail) := by
    rw [hfree']; omega
  have hidxmod : s.head &&& (s.capacity - 1) = s.head % s.capacity := by
    rw [hk]; exact land_mask_eq_mod s.head k
  rw [Push_some_eq s d count (by omega) hnotgt]
  dsimp only
  rw [hidxmod]
  set C := s.capacity with hCdef
  set idx := s.head % C with hidxdef
  have hidxlt : idx < C := Nat.mod_lt _ hC0
  set fcc := min count (C - idx) with hfccdef
  have hcountC : count ≤ C := by omega
  have hc1len : (d.take fcc).length = fcc := by
    rw [List.length_take]; omega
  have hc2len : ((d.take count).drop fcc).length = count - fcc := by
    rw [List.length_drop, List.length_take]; omega
  refine ⟨rfl, rfl, rfl, rfl, ?_, ?_, ?_⟩
  · rw [copyInto_length, copyInto_length, hlen]
  · intro j hj
    by_cases hjf : j < fcc
    · have hpos : idx + j < C := by omega
      rw [Nat.mod_eq_of_lt hpos]
      rw [copyInto_getD_ge _ _ _ _ _ (by rw [hc2len]; omega)]
      rw [copyInto_getD_mid _ _ _ _ _ (by rw [hc1len]; omega)
        (by rw [hlen]; omega)]
      exact getD_take d fcc j default hjf
    · have hfcc_eq : fcc = C - idx := by omega
      have hge : C ≤ idx + j := by omega
      have hmod : (idx + j) % C = j - fcc := by
        rw [Nat.mod_eq_sub_mod hge, Nat.mod_eq_of_lt (by omega)]
        omega
      rw [hmod]
      have h1 : j - fcc < ((d.take count).drop fcc).length := by
        rw [hc2len]; omega
      have h2 : 0 + (j - fcc) < (copyInto s.buffer idx (d.take fcc)).length := by
        rw [copyInto_length, hlen]; omega
      have hmid := copyInto_getD_mid ((d.take count).drop fcc)
        (copyInto s.buffer idx (d.take fcc)) 0 (j - fcc) default h1 h2
      rw [Nat.zero_add] at hmid
      rw [hmid, getD_drop]
      rw [show fcc + (j - fcc) = j by omega]
      exact getD_take d count j default hj
  · intro p hp hnot
    have hp2 : ¬ p < count - fcc := by
      intro hplt
      have hfcc_eq : fcc = C - idx := by omega
      refine hnot (fcc + p) (by omega) ?_
      rw [show idx + (fcc + p) = C + p by omega, Nat.add_mod_left,
        Nat.mod_eq_of_lt hp]
    rw [copyInto_getD_ge _ _ _ _ _ (by rw [hc2len]; omega)]
    have hp3 : p < idx ∨ idx + fcc ≤ p := by
      by_contra hcon
      push_neg at hcon
      obtain ⟨h1, h2⟩ := hcon
      refine hnot (p - idx) (by omega) ?_
      rw [show idx + (p - idx) = p by omega, Nat.mod_eq_of_lt hp]
    cases hp3 with
    | inl h => exact copyInto_getD_lt _ _ _ _ _ h
    | inr h => exact copyInto_getD_ge _ _ _ _ _ (by rw [hc1len]; omega)

end RingBuffer

theorem getD_of_lt {α : Type} (l : List α) (n : Nat) (d : α)
    (h : n < l.length) : l.getD n d = l[n] := by
  simp [List.getD_eq_getElem?_getD, List.getElem?_eq_getElem h]

namespace RingBuffer

theorem queueContents_length [Inhabited α] (s : RingBuffer α) :
    (queueContents s).length = usub s.head s.tail := by
  simp [queueContents]

/-- A successful `Pop` removes exactly the first `count` elements of the
abstract queue, returns them in order, and advances the read cursor by
`count` (mod `2^64`). -/
theorem pop_success_spec [Inhabited α] (s : RingBuffer α) (count : Nat)
    (hInv : s.Inv) (h0 : 0 < count) (havail : count ≤ usub s.head s.tail) :
    Pop s false count = ({ s with tail := (s.tail + count) % wordSize },
      some ((queueContents s).take count)) := by
  obtain ⟨hlen, hC0, hland, hCW, hhW, htW, hle⟩ := hInv
  obtain ⟨k, hk⟩ := pow2_of_land_pred s.capacity (by omega) hland
  have hidxmod : s.tail &&& (s.capacity - 1) = s.tail % s.capacity := by
    rw [hk]; exact land_mask_eq_mod s.tail k
  rw [Pop_some_eq s count (by omega) (by omega)]
  refine Prod.ext rfl ?_
  dsimp only
  rw [hidxmod]
  congr 1
  set C := s.capacity with hCdef
  set idx := s.tail % C with hidxdef
  have hidxlt : idx < C := Nat.mod_lt _ hC0
  set fcc := min count (C - idx) with hfccdef
  have hcountC : count ≤ C := by omega
  have h1len : (subList s.buffer idx fcc).length = fcc := by
    simp only [subList, List.length_take, List.length_drop, hlen]
    omega
  have h2len : (subList s.buffer 0 (count - fcc)).length = count - fcc := by
    simp only [subList, List.length_take, List.length_drop, hlen]
    omega
  refine List.ext_getElem ?_ ?_
  · rw [List.length_append, h1len, h2len, List.length_take,
      queueContents_length]
    omega
  · intro n hn1 hn2
    have hncount : n < count := by
      rw [List.length_append, h1len, h2len] at hn1
      omega
    have hrhs : ((queueContents s).take count)[n]
        = s.buffer.getD ((s.tail + n) % C) default := by
      rw [List.getElem_take]
      simp [queueContents, List.getElem_map, List.getElem_range]
    rw [hrhs, List.getElem_append]
    by_cases hnf : n < fcc
    · rw [dif_pos (by rw [h1len]; exact hnf)]
      have hmod : (s.tail + n) % C = idx + n := by
        rw [← Nat.mod_add_mod, ← hidxdef, Nat.mod_eq_of_lt (by omega)]
      rw [hmod]
      have hidxn : idx + n < s.buffer.length := by rw [hlen]; omega
      rw [getD_of_lt _ _ _ hidxn]
      simp only [subList]
      rw [List.getElem_take, List.getElem_drop]
    · rw [dif_neg (by rw [h1len]; exact hnf)]
      have hfcc_eq : fcc = C - idx := by omega
      have hmod : (s.tail + n) % C = n - fcc := by
        rw [← Nat.mod_add_mod, ← hidxdef, Nat.mod_eq_sub_mod (by omega),
          Nat.mod_eq_of_lt (by omega)]
        omega
      rw [hmod]
      simp only [h1len]
      have hlt : n - fcc < s.buffer.length := by rw [hlen]; omega
      rw [getD_of_lt _ _ _ hlt]
      simp only [subList, List.drop_zero]
      rw [List.getElem_take]

end RingBuffer

namespace RingBuffer

/-- A successful `Push` appends exactly the pushed elements to the abstract
queue. -/
theorem push_queueContents [Inhabited α] (s : RingBuffer α) (d : List α)
    (count : Nat) (hInv : s.Inv) (hcd : count ≤ d.length) (h0 : 0 < count)
    (hfree : count ≤ s.capacity - usub s.head s.tail) :
    queueContents (Push s (some d) count).1
      = queueContents s ++ d.take count := by
  obtain ⟨hB, hhead, htail, hcap, hblen, hwrite, huntouched⟩ :=
    push_success_spec s d count hInv hcd h0 hfree
  obtain ⟨hlen, hC0, hland, hCW, hhW, htW, hle⟩ := hInv
  obtain ⟨k, hk⟩ := pow2_of_land_pred s.capacity (by omega) hland
  have hdvd : s.capacity ∣ wordSize := hk ▸ capacity_dvd_wordSize k (hk ▸ hCW)
  have hcong : (s.tail + usub s.head s.tail) % s.capacity
      = s.head % s.capacity := add_usub_mod_capacity _ _ _ hhW htW hdvd
  set dlen := usub s.head s.tail with hdlen
  have hsize' : usub (Push s (some d) count).1.head
      (Push s (some d) count).1.tail = dlen + count := by
    rw [hhead, htail, usub_advance_head _ _ _ hhW (by simp [wordSize] at *; omega)]
  refine List.ext_getElem ?_ ?_
  · rw [queueContents_length, hsize', List.length_append,
      queueContents_length, List.length_take]
    omega
  · intro n hn1 hn2
    rw [queueContents_length, hsize'] at hn1
    have hlhs : (queueContents (Push s (some d) count).1)[n]
        = (Push s (some d) count).1.buffer.getD
            ((s.tail + n) % s.capacity) default := by
      simp [queueContents, List.getElem_map, List.getElem_range, hsize',
        htail, hcap]
    rw [hlhs, List.getElem_append]
    by_cases hnd : n < dlen
    · rw [dif_pos (by rw [queueContents_length, ← hdlen]; exact hnd)]
      have hmodlt : (s.tail + n) % s.capacity < s.capacity :=
        Nat.mod_lt _ hC0
      rw [huntouched _ hmodlt ?_]
      · simp [queueContents, List.getElem_map, List.getElem_range]
      · intro j hj heq
        have h1 : (s.head % s.capacity + j) % s.capacity
            = (s.tail + (dlen + j)) % s.capacity := by
          conv_rhs => rw [← Nat.add_assoc, ← Nat.mod_add_mod, hcong]
        rw [h1] at heq
        have h2 : (dlen + j) % s.capacity = n % s.capacity :=
          Nat.ModEq.add_left_cancel' s.tail heq
        rw [Nat.mod_eq_of_lt (by omega), Nat.mod_eq_of_lt (by omega)] at h2
        omega
    · rw [dif_neg (by rw [queueContents_length, ← hdlen]; exact hnd)]
      set j := n - dlen with hj
      have hjc : j < count := by omega
      have h1 : (s.tail + n) % s.capacity
          = (s.head % s.capacity + j) % s.capacity := by
        conv_rhs => rw [← hcong, Nat.mod_add_mod,
          (by omega : s.tail + dlen + j = s.tail + n)]
      rw [h1, hwrite j hjc]
      have hjd : j < d.length := by omega
      rw [getD_of_lt _ _ _ hjd]
      rw [List.getElem_take]
      congr 1
      rw [queueContents_length, ← hdlen]

/-- A successful `Push` preserves the ring-buffer invariant. -/
theorem push_Inv [Inhabited α] (s : RingBuffer α) (d : List α) (count : Nat)
    (hInv : s.Inv) (hcd : count ≤ d.length) (h0 : 0 < count)
    (hfree : count ≤ s.capacity - usub s.head s.tail) :
    ((Push s (some d) count).1).Inv := by
  obtain ⟨hB, hhead, htail, hcap, hblen, hwrite, huntouched⟩ :=
    push_success_spec s d count hInv hcd h0 hfree
  obtain ⟨hlen, hC0, hland, hCW, hhW, htW, hle⟩ := hInv
  have hsize' : usub (Push s (some d) count).1.head
      (Push s (some d) count).1.tail = usub s.head s.tail + count := by
    rw [hhead, htail, usub_advance_head _ _ _ hhW (by simp [wordSize] at *; omega)]
  refine ⟨by rw [hblen, hcap], by rw [hcap]; exact hC0,
    by rw [hcap]; exact hland, by rw [hcap]; exact hCW, ?_, ?_, ?_⟩
  · rw [hhead]; exact Nat.mod_lt _ wordSize_pos
  · rw [htail]; exact htW
  · rw [hsize', hcap]; omega

/-- A successful `Pop` preserves the ring-buffer invariant. -/
theorem pop_Inv [Inhabited α] (s : RingBuffer α) (count : Nat)
    (hInv : s.Inv) (h0 : 0 < count) (havail : count ≤ usub s.head s.tail) :
    ((Pop s false count).1).Inv := by
  rw [pop_success_spec s count hInv h0 havail]
  obtain ⟨hlen, hC0, hland, hCW, hhW, htW, hle⟩ := hInv
  refine ⟨hlen, hC0, hland, hCW, hhW, Nat.mod_lt _ wordSize_pos, ?_⟩
  dsimp only
  rw [usub_advance_tail _ _ _ htW havail]
  omega

/-- A successful `Pop` drops the returned elements from the abstract
queue. -/
theorem pop_queueContents [Inhabited α] (s : RingBuffer α) (count : Nat)
    (hInv : s.Inv) (h0 : 0 < count) (havail : count ≤ usub s.head s.tail) :
    queueContents (Pop s false count).1
      = (queueContents s).drop count := by
  rw [pop_success_spec s count hInv h0 havail]
  obtain ⟨hlen, hC0, hland, hCW, hhW, htW, hle⟩ := hInv
  obtain ⟨k, hk⟩ := pow2_of_land_pred s.capacity (by omega) hland
  have hdvd : s.capacity ∣ wordSize := hk ▸ capacity_dvd_wordSize k (hk ▸ hCW)
  have hsize' : usub s.head ((s.tail + count) % wordSize)
      = usub s.head s.tail - count := usub_advance_tail _ _ _ htW havail
  refine List.ext_getElem ?_ ?_
  · rw [queueContents_length, List.length_drop, queueContents_length]
    dsimp only
    rw [hsize']
  · intro n hn1 hn2
    rw [queueContents_length] at hn1
    dsimp only at hn1
    rw [hsize'] at hn1
    have hlhs : (queueContents { s with
        tail := (s.tail + count) % wordSize })[n]
        = s.buffer.getD (((s.tail + count) % wordSize + n)
            % s.capacity) default := by
      simp [queueContents, List.getElem_map, List.getElem_range]
    rw [hlhs, List.getElem_drop]
    have hmod : ((s.tail + count) % wordSize + n) % s.capacity
        = (s.tail + (count + n)) % s.capacity := by
      rw [← Nat.mod_add_mod, Nat.mod_mod_of_dvd _ hdvd, Nat.mod_add_mod,
        Nat.add_assoc]
    rw [hmod]
    simp [queueContents, List.getElem_map, List.getElem_range]

end RingBuffer

namespace RingBuffer

/-- `Push` with a null data pointer fails with no side effect. -/
theorem Push_null (s : RingBuffer α) (count : Nat) :
    Push s none count = (s, false) := rfl

/-- `Push` with a zero count fails with no side effect. -/
theorem Push_zero (s : RingBuffer α) (d : List α) :
    Push s (some d) 0 = (s, false) := by simp [Push]

/-- `Push` with more elements than the current free space fails with no
side effect. -/
theorem Push_overflow (s : RingBuffer α) (data : Option (List α))
    (count : Nat) (h : count > usub s.capacity (usub s.head s.tail)) :
    Push s data count = (s, false) := by
  cases data with
  | none => rfl
  | some d =>
      by_cases hc : count = 0
      · simp [Push, hc]
      · simp [Push, hc, h]

/-- `Pop` with a null destination pointer fails with no side effect. -/
theorem Pop_nullDest (s : RingBuffer α) (count : Nat) :
    Pop s true count = (s, none) := by simp [Pop]

/-- `Pop` with a zero count fails with no side effect. -/
theorem Pop_zero (s : RingBuffer α) (destNull : Bool) :
    Pop s destNull 0 = (s, none) := by cases destNull <;> simp [Pop]

/-- `Pop` with more elements than currently available fails with no side
effect. -/
theorem Pop_underflow (s : RingBuffer α) (destNull : Bool) (count : Nat)
    (h : count > usub s.head s.tail) :
    Pop s destNull count = (s, none) := by
  cases destNull with
  | true => simp [Pop]
  | false =>
      by_cases hc : count = 0
      · simp [Pop, hc]
      · simp [Pop, hc, h]

/-- `Push` preserves the invariant on every input (successful or not). -/
theorem push_Inv_any (s : RingBuffer α) (data : Option (List α))
    (count : Nat) (hInv : s.Inv) : ((Push s data count).1).Inv := by
  cases data with
  | none => exact hInv
  | some d =>
      by_cases hc : count = 0
      · rw [hc, Push_zero]; exact hInv
      · by_cases hover : count > usub s.capacity (usub s.head s.tail)
        · rw [Push_overflow s (some d) count hover]; exact hInv
        · rw [Push_some_eq s d count hc hover]
          obtain ⟨hlen, hC0, hland, hCW, hhW, htW, hle⟩ := hInv
          have hfree' : usub s.capacity (usub s.head s.tail)
              = s.capacity - usub s.head s.tail := usub_eq_sub _ _ hCW hle
          refine ⟨?_, hC0, hland, hCW, Nat.mod_lt _ wordSize_pos, htW, ?_⟩
          · dsimp only
            rw [copyInto_length, copyInto_length, hlen]
          · dsimp only
            rw [usub_advance_head _ _ _ hhW
              (by simp only [wordSize] at *; omega)]
            omega

/-- `Pop` preserves the invariant on every input (successful or not). -/
theorem pop_Inv_any (s : RingBuffer α) (destNull : Bool) (count : Nat)
    (hInv : s.Inv) : ((Pop s destNull count).1).Inv := by
  cases destNull with
  | true => rw [Pop_nullDest]; exact hInv
  | false =>
      by_cases hc : count = 0
      · rw [hc, Pop_zero]; exact hInv
      · by_cases hover : count > usub s.head s.tail
        · rw [Pop_underflow s false count hover]; exact hInv
        · rw [Pop_some_eq s count hc hover]
          obtain ⟨hlen, hC0, hland, hCW, hhW, htW, hle⟩ := hInv
          refine ⟨hlen, hC0, hland, hCW, hhW, Nat.mod_lt _ wordSize_pos, ?_⟩
          dsimp only
          rw [usub_advance_tail _ _ _ htW (by omega)]
          omega

end RingBuffer

/-- One SPSC queue operation: a producer `Push` of a whole batch, or a
consumer `Pop` of `n` elements (with a valid destination pointer). -/
inductive QueueOp (α : Type) where
  | push (d : List α)
  | pop (n : Nat)
  deriving DecidableEq

namespace RingBuffer

/-- Run a (serialized) sequence of queue operations, collecting the
concatenation of all successfully popped elements. -/
def runTrace [Inhabited α] : RingBuffer α → List (QueueOp α) →
    RingBuffer α × List α
  | s, [] => (s, [])
  | s, QueueOp.push d :: rest => runTrace (Push s (some d) d.length).1 rest
  | s, QueueOp.pop n :: rest =>
      match (Pop s false n).2 with
      | some out =>
          let r := runTrace (Pop s false n).1 rest
          (r.1, out ++ r.2)
      | none => runTrace (Pop s false n).1 rest

/-- The concatenation of all pushed batches of an operation sequence. -/
def pushedOf : List (QueueOp α) → List α
  | [] => []
  | QueueOp.push d :: rest => d ++ pushedOf rest
  | QueueOp.pop _ :: rest => pushedOf rest

/-- Checks, along the run, that no push is attempted when the current free
space (`capacity_ - (head_ - tail_)`, exactly as computed by the code) is
insufficient for the batch. -/
def pushesOk [Inhabited α] : RingBuffer α → List (QueueOp α) → Bool
  | _, [] => true
  | s, QueueOp.push d :: rest =>
      decide (d.length ≤ usub s.capacity (usub s.head s.tail)) &&
      pushesOk (Push s (some d) d.length).1 rest
  | s, QueueOp.pop n :: rest => pushesOk (Pop s false n).1 rest

/-- FIFO correctness of the ring buffer under the SPSC discipline: as long
as no push is attempted with insufficient free space, everything that was
pushed equals everything that was popped followed by what still sits in the
queue — in order, with no duplication or loss. -/
theorem runTrace_fifo [Inhabited α] (ops : List (QueueOp α)) :
    ∀ s : RingBuffer α, s.Inv → pushesOk s ops = true →
      queueContents s ++ pushedOf ops
        = (runTrace s ops).2 ++ queueContents (runTrace s ops).1 ∧
      ((runTrace s ops).1).Inv := by
  induction ops with
  | nil =>
      intro s hInv _
      simp [runTrace, pushedOf, hInv]
  | cons op rest ih =>
      intro s hInv hok
      cases op with
      | push d =>
          simp only [pushesOk, Bool.and_eq_true, decide_eq_true_eq] at hok
          obtain ⟨hfree, hok'⟩ := hok
          obtain ⟨hlen, hC0, hland, hCW, hhW, htW, hle⟩ := id hInv
          have hfree' : d.length ≤ s.capacity - usub s.head s.tail := by
            rw [usub_eq_sub _ _ hCW hle] at hfree
            exact hfree
          by_cases hd0 : d.length = 0
          · have hdnil : d = [] := List.eq_nil_of_length_eq_zero hd0
            subst hdnil
            obtain ⟨ihEq, ihInv⟩ := ih s hInv
              (by simpa [Push_zero] using hok')
            refine ⟨?_, ?_⟩
            · simpa [runTrace, pushedOf, Push_zero] using ihEq
            · simpa [runTrace, Push_zero] using ihInv
          · have h0 : 0 < d.length := Nat.pos_of_ne_zero hd0
            have key := push_queueContents s d d.length hInv le_rfl h0 hfree'
            have hInv' := push_Inv_any s (some d) d.length hInv
            obtain ⟨ihEq, ihInv⟩ := ih (Push s (some d) d.length).1 hInv' hok'
            refine ⟨?_, by simpa [runTrace] using ihInv⟩
            simp only [runTrace, pushedOf]
            rw [← List.append_assoc]
            rw [show queueContents s ++ d
              = queueContents (Push s (some d) d.length).1 by
                rw [key, List.take_length]]
            exact ihEq
      | pop n =>
          simp only [pushesOk] at hok
          by_cases hfail : n = 0 ∨ n > usub s.head s.tail
          · have hpop : Pop s false n = (s, none) := by
              rcases hfail with h | h
              · rw [h]; exact Pop_zero s false
              · exact Pop_underflow s false n h
            rw [hpop] at hok
            obtain ⟨ihEq, ihInv⟩ := ih s hInv hok
            refine ⟨?_, ?_⟩
            · simpa [runTrace, pushedOf, hpop] using ihEq
            · simpa [runTrace, hpop] using ihInv
          · push_neg at hfail
            obtain ⟨hn0, hnle⟩ := hfail
            have h0 : 0 < n := Nat.pos_of_ne_zero hn0
            have hpop := pop_success_spec s n hInv h0 hnle
            have hInv' : ((Pop s false n).1).Inv := pop_Inv_any s false n hInv
            obtain ⟨ihEq, ihInv⟩ := ih (Pop s false n).1 hInv' hok
            have hcontents := pop_queueContents s n hInv h0 hnle
            have hout : (Pop s false n).2
                = some ((queueContents s).take n) := by rw [hpop]
            refine ⟨?_, ?_⟩
            · simp only [runTrace, pushedOf, hout]
              calc queueContents s ++ pushedOf rest
                  = (List.take n (queueContents s)
                      ++ List.drop n (queueContents s)) ++ pushedOf rest := by
                    rw [List.take_append_drop]
                _ = List.take n (queueContents s)
                      ++ (List.drop n (queueContents s) ++ pushedOf rest) := by
                    rw [List.append_assoc]
                _ = List.take n (queueContents s)
                      ++ (queueContents (Pop s false n).1 ++ pushedOf rest) := by
                    rw [hcontents]
                _ = List.take n (queueContents s)
                      ++ (((Pop s false n).1.runTrace rest).2
                          ++ ((Pop s false n).1.runTrace rest).1.queueContents) := by
                    rw [ihEq]
                _ = (List.take n (queueContents s)
                      ++ ((Pop s false n).1.runTrace rest).2)
                      ++ ((Pop s false n).1.runTrace rest).1.queueContents := by
                    rw [List.append_assoc]
            · simp only [runTrace, hout]
              exact ihInv

/-- The states reachable from a freshly constructed, successfully
initialized ring buffer by any sequence of `Push`/`Pop` calls. -/
inductive Reachable [Inhabited α] : RingBuffer α → Prop where
  | init (c : Nat) (hc : c < wordSize)
      (h : (Initialize (mk0 : RingBuffer α) c).2 = true) :
      Reachable (Initialize (mk0 : RingBuffer α) c).1
  | push (s : RingBuffer α) (data : Option (List α)) (count : Nat)
      (h : Reachable s) : Reachable (Push s data count).1
  | pop (s : RingBuffer α) (destNull : Bool) (count : Nat)
      (h : Reachable s) : Reachable (Pop s destNull count).1

/-- A successful `Initialize` on a fresh buffer establishes the invariant. -/
theorem initialize_Inv [Inhabited α] (c : Nat) (hc : c < wordSize)
    (h : (Initialize (mk0 : RingBuffer α) c).2 = true) :
    ((Initialize (mk0 : RingBuffer α) c).1).Inv := by
  by_cases hguard : c = 0 ∨ c &&& (c - 1) ≠ 0
  · exfalso
    simp [Initialize, hguard] at h
  · push_neg at hguard
    have hcond : ¬ (c = 0 ∨ c &&& (c - 1) ≠ 0) := by
      push_neg
      exact hguard
    simp only [Initialize, if_neg hcond]
    refine ⟨?_, ?_, ?_, ?_, ?_, ?_, ?_⟩
    · show (listResize (mk0 : RingBuffer α).buffer c).length = c
      simp [mk0, listResize]
    · show 0 < c
      omega
    · show c &&& (c - 1) = 0
      exact hguard.2
    · show c < wordSize
      exact hc
    · show (mk0 : RingBuffer α).head < wordSize
      simp [mk0, wordSize]
    · show (mk0 : RingBuffer α).tail < wordSize
      simp [mk0, wordSize]
    · show usub (mk0 : RingBuffer α).head (mk0 : RingBuffer α).tail ≤ c
      rw [show (mk0 : RingBuffer α).head = 0 from rfl,
        show (mk0 : RingBuffer α).tail = 0 from rfl, usub_self_eq_zero]
      omega

/-- Every reachable state satisfies the invariant. -/
theorem reachable_Inv [Inhabited α] (s : RingBuffer α)
    (h : Reachable s) : s.Inv := by
  induction h with
  | init c hc h => exact initialize_Inv c hc h
  | push s data count h ih => exact push_Inv_any s data count ih
  | pop s destNull count h ih => exact pop_Inv_any s destNull count ih

end RingBuffer

namespace RingBuffer

/-- On success, `Initialize` on a fresh buffer yields the fully determined
state: a default-filled store of length `c`, both cursors zero. -/
theorem initialize_mk0_state [Inhabited α] (c : Nat)
    (h : (Initialize (mk0 : RingBuffer α) c).2 = true) :
    (Initialize (mk0 : RingBuffer α) c).1
      = ⟨List.replicate c default, 0, 0, c⟩ := by
  by_cases hguard : c = 0 ∨ c &&& (c - 1) ≠ 0
  · simp [Initialize, hguard] at h
  · simp [Initialize, hguard, mk0, listResize]

/-- The freshly initialized buffer holds the empty abstract queue. -/
theorem initialize_mk0_queueContents [Inhabited α] (c : Nat)
    (h : (Initialize (mk0 : RingBuffer α) c).2 = true) :
    queueContents (Initialize (mk0 : RingBuffer α) c).1 = [] := by
  rw [initialize_mk0_state c h]
  simp [queueContents, usub_self_eq_zero]

/-- `Initialize` returns `true` exactly on (nonzero) powers of two. -/
theorem initialize_true_iff [Inhabited α] (c : Nat) :
    (Initialize (mk0 : RingBuffer α) c).2 = true ↔ ∃ k, c = 2 ^ k := by
  by_cases hguard : c = 0 ∨ c &&& (c - 1) ≠ 0
  · simp only [Initialize, if_pos hguard]
    constructor
    · intro h
      exact absurd h (by simp)
    · rintro ⟨k, rfl⟩
      exfalso
      rcases hguard with h1 | h2
      · have hpos : 0 < 2 ^ k := by positivity
        omega
      · exact h2 (land_pred_of_pow2 k)
  · have hcond := hguard
    push_neg at hcond
    simp only [Initialize, if_neg hguard]
    constructor
    · intro _
      exact pow2_of_land_pred c hcond.1 hcond.2
    · intro _
      trivial

end RingBuffer

/-! ### Claim theorems: ring buffer (C1, C3, C4, C5) -/

/-- C1: under the SPSC discipline, for every sequence of interleaved
Push/Pop operations on an initialized ring buffer in which no push is
attempted with insufficient free space, the pushed sequence equals the
popped sequence followed by what remains queued — in order, with no
duplication or loss; moreover a successful push writes the `count`
elements starting at `write_cursor mod capacity` (wrapping as needed) and
advances the write cursor by `count`. -/
theorem C1_spsc_fifo :
    (∀ (α : Type) [Inhabited α] (c : Nat) (ops : List (QueueOp α)),
      c < wordSize →
      (RingBuffer.Initialize (RingBuffer.mk0 : RingBuffer α) c).2 = true →
      RingBuffer.pushesOk
        (RingBuffer.Initialize (RingBuffer.mk0 : RingBuffer α) c).1 ops
        = true →
      RingBuffer.pushedOf ops
        = (RingBuffer.runTrace
            (RingBuffer.Initialize (RingBuffer.mk0 : RingBuffer α) c).1 ops).2
          ++ RingBuffer.queueContents (RingBuffer.runTrace
            (RingBuffer.Initialize (RingBuffer.mk0 : RingBuffer α) c).1 ops).1) ∧
    (∀ (α : Type) [Inhabited α] (s : RingBuffer α) (d : List α) (count : Nat),
      s.Inv → count ≤ d.length → 0 < count →
      count ≤ s.capacity - usub s.head s.tail →
      (RingBuffer.Push s (some d) count).2 = true ∧
      (RingBuffer.Push s (some d) count).1.head
        = (s.head + count) % wordSize ∧
      (∀ j, j < count →
        (RingBuffer.Push s (some d) count).1.buffer.getD
          ((s.head % s.capacity + j) % s.capacity) default
          = d.getD j default)) := by
  constructor
  · intro α _ c ops hc hinit hok
    have hInv := RingBuffer.initialize_Inv c hc hinit
    have h := (RingBuffer.runTrace_fifo ops _ hInv hok).1
    rw [RingBuffer.initialize_mk0_queueContents c hinit,
      List.nil_append] at h
    exact h
  · intro α _ s d count hInv hcd h0 hfree
    obtain ⟨hB, hhead, htail, hcap, hblen, hwrite, huntouched⟩ :=
      RingBuffer.push_success_spec s d count hInv hcd h0 hfree
    exact ⟨hB, hhead, hwrite⟩

/-- Witness for C1 on a concrete run: capacity 4, pushing `[5,6,7]` then
`[8]` with two interleaved pops of 2. -/
theorem C1_spsc_fifo_witness :
    ((RingBuffer.Initialize (RingBuffer.mk0 : RingBuffer Nat) 4).2 = true ∧
     RingBuffer.pushesOk
       (RingBuffer.Initialize (RingBuffer.mk0 : RingBuffer Nat) 4).1
       [QueueOp.push [5, 6, 7], QueueOp.pop 2, QueueOp.push [8],
        QueueOp.pop 2] = true) ∧
    RingBuffer.pushedOf
      [QueueOp.push [5, 6, 7], QueueOp.pop 2, QueueOp.push [8],
       QueueOp.pop 2]
      = (RingBuffer.runTrace
          (RingBuffer.Initialize (RingBuffer.mk0 : RingBuffer Nat) 4).1
          [QueueOp.push [5, 6, 7], QueueOp.pop 2, QueueOp.push [8],
           QueueOp.pop 2]).2
        ++ RingBuffer.queueContents (RingBuffer.runTrace
          (RingBuffer.Initialize (RingBuffer.mk0 : RingBuffer Nat) 4).1
          [QueueOp.push [5, 6, 7], QueueOp.pop 2, QueueOp.push [8],
           QueueOp.pop 2]).1 :=
  ⟨⟨by decide, by decide⟩,
   C1_spsc_fifo.1 Nat 4 _ (by decide) (by decide) (by decide)⟩

/-- C3: a `Push` whose count exceeds the current free space, and a `Pop`
whose count exceeds the available elements, fail and leave the whole state
(cursors, buffer contents, subsequent `Size()`) unchanged; a push with null
data or zero count fails likewise with no side effect. -/
theorem C3_failed_ops_no_side_effect :
    (∀ (α : Type) (s : RingBuffer α) (data : Option (List α)) (count : Nat),
      s.Inv → count > s.capacity - RingBuffer.Size s →
      RingBuffer.Push s data count = (s, false) ∧
      (RingBuffer.Push s data count).1.head = s.head ∧
      (RingBuffer.Push s data count).1.tail = s.tail ∧
      (RingBuffer.Push s data count).1.buffer = s.buffer ∧
      RingBuffer.Size (RingBuffer.Push s data count).1
        = RingBuffer.Size s) ∧
    (∀ (α : Type) (s : RingBuffer α) (destNull : Bool) (count : Nat),
      count > RingBuffer.Size s →
      RingBuffer.Pop s destNull count = (s, none) ∧
      (RingBuffer.Pop s destNull count).1.head = s.head ∧
      (RingBuffer.Pop s destNull count).1.tail = s.tail ∧
      (RingBuffer.Pop s destNull count).1.buffer = s.buffer ∧
      RingBuffer.Size (RingBuffer.Pop s destNull count).1
        = RingBuffer.Size s) ∧
    (∀ (α : Type) (s : RingBuffer α) (count : Nat),
      RingBuffer.Push s none count = (s, false)) ∧
    (∀ (α : Type) (s : RingBuffer α) (d : List α),
      RingBuffer.Push s (some d) 0 = (s, false)) := by
  refine ⟨?_, ?_, ?_, ?_⟩
  · intro α s data count hInv hover
    obtain ⟨hlen, hC0, hland, hCW, hhW, htW, hle⟩ := hInv
    have hfree' : usub s.capacity (usub s.head s.tail)
        = s.capacity - usub s.head s.tail := usub_eq_sub _ _ hCW hle
    have h : RingBuffer.Push s data count = (s, false) :=
      RingBuffer.Push_overflow s data count
        (by rw [hfree']; exact hover)
    rw [h]
    exact ⟨rfl, rfl, rfl, rfl, rfl⟩
  · intro α s destNull count hover
    have h : RingBuffer.Pop s destNull count = (s, none) :=
      RingBuffer.Pop_underflow s destNull count hover
    rw [h]
    exact ⟨rfl, rfl, rfl, rfl, rfl⟩
  · intro α s count
    exact RingBuffer.Push_null s count
  · intro α s d
    exact RingBuffer.Push_zero s d

/-- Witness for C3: on an initialized capacity-2 buffer, pushing 3 elements
and popping 1 both fail and leave the state unchanged. -/
theorem C3_failed_ops_no_side_effect_witness :
    (RingBuffer.Inv (⟨[0, 0], 0, 0, 2⟩ : RingBuffer Nat) ∧
     3 > (2 : Nat) - RingBuffer.Size (⟨[0, 0], 0, 0, 2⟩ : RingBuffer Nat) ∧
     1 > RingBuffer.Size (⟨[0, 0], 0, 0, 2⟩ : RingBuffer Nat)) ∧
    RingBuffer.Push (⟨[0, 0], 0, 0, 2⟩ : RingBuffer Nat) (some [7, 8, 9]) 3
      = (⟨[0, 0], 0, 0, 2⟩, false) ∧
    RingBuffer.Pop (⟨[0, 0], 0, 0, 2⟩ : RingBuffer Nat) false 1
      = (⟨[0, 0], 0, 0, 2⟩, none) :=
  ⟨⟨by decide, by decide, by decide⟩,
   (C3_failed_ops_no_side_effect.1 Nat ⟨[0, 0], 0, 0, 2⟩ (some [7, 8, 9]) 3
     (by decide) (by decide)).1,
   (C3_failed_ops_no_side_effect.2.1 Nat ⟨[0, 0], 0, 0, 2⟩ false 1
     (by decide)).1⟩

/-- C4: `Initialize(capacity)` succeeds exactly when the capacity is a
(nonzero) power of two; on success the backing store has length `capacity`
and both cursors are zero; in particular 0 and 100 fail while 1 and 1024
succeed. -/
theorem C4_initialize_power_of_two :
    (∀ (α : Type) [Inhabited α] (c : Nat),
      (RingBuffer.Initialize (RingBuffer.mk0 : RingBuffer α) c).2 = true
        ↔ ∃ k, c = 2 ^ k) ∧
    (∀ (α : Type) [Inhabited α] (c : Nat),
      (RingBuffer.Initialize (RingBuffer.mk0 : RingBuffer α) c).2 = true →
      (RingBuffer.Initialize (RingBuffer.mk0 : RingBuffer α) c).1.buffer.length
        = c ∧
      (RingBuffer.Initialize (RingBuffer.mk0 : RingBuffer α) c).1.capacity
        = c ∧
      (RingBuffer.Initialize (RingBuffer.mk0 : RingBuffer α) c).1.head = 0 ∧
      (RingBuffer.Initialize (RingBuffer.mk0 : RingBuffer α) c).1.tail = 0) ∧
    (RingBuffer.Initialize (RingBuffer.mk0 : RingBuffer Nat) 0).2 = false ∧
    (RingBuffer.Initialize (RingBuffer.mk0 : RingBuffer Nat) 100).2 = false ∧
    (RingBuffer.Initialize (RingBuffer.mk0 : RingBuffer Nat) 1).2 = true ∧
    (RingBuffer.Initialize (RingBuffer.mk0 : RingBuffer Nat) 1024).2
      = true := by
  refine ⟨?_, ?_, by decide, by decide, by decide, by decide⟩
  · intro α _ c
    exact RingBuffer.initialize_true_iff c
  · intro α _ c h
    rw [RingBuffer.initialize_mk0_state c h]
    exact ⟨List.length_replicate c default, rfl, rfl, rfl⟩

/-- Witness for C4 at capacity 1024. -/
theorem C4_initialize_power_of_two_witness :
    (RingBuffer.Initialize (RingBuffer.mk0 : RingBuffer Nat) 1024).2
      = true ∧
    (RingBuffer.Initialize (RingBuffer.mk0 : RingBuffer Nat) 1024).1.head
      = 0 ∧
    (RingBuffer.Initialize (RingBuffer.mk0 : RingBuffer Nat) 1024).1.tail
      = 0 :=
  ⟨(C4_initialize_power_of_two.1 Nat 1024).mpr ⟨10, by norm_num⟩,
   ((C4_initialize_power_of_two.2.1 Nat 1024 (by decide)).2.2.1),
   ((C4_initialize_power_of_two.2.1 Nat 1024 (by decide)).2.2.2)⟩

/-- C5: in every reachable state of an initialized ring buffer the unsigned
cursor difference lies in `[0, capacity]`, is `0` exactly when the buffer
reports empty and `capacity` exactly when it reports full, and every `Push`
or `Pop` (successful or not) preserves the invariant. -/
theorem C5_cursor_difference_invariant :
    (∀ (α : Type) [Inhabited α] (s : RingBuffer α),
      RingBuffer.Reachable s →
      usub s.head s.tail ≤ s.capacity ∧
      (RingBuffer.Empty s = true ↔ usub s.head s.tail = 0) ∧
      (RingBuffer.Full s = true ↔ usub s.head s.tail = s.capacity)) ∧
    (∀ (α : Type) (s : RingBuffer α) (data : Option (List α)) (count : Nat),
      s.Inv →
      usub (RingBuffer.Push s data count).1.head
          (RingBuffer.Push s data count).1.tail
        ≤ (RingBuffer.Push s data count).1.capacity) ∧
    (∀ (α : Type) (s : RingBuffer α) (destNull : Bool) (count : Nat),
      s.Inv →
      usub (RingBuffer.Pop s destNull count).1.head
          (RingBuffer.Pop s destNull count).1.tail
        ≤ (RingBuffer.Pop s destNull count).1.capacity) := by
  refine ⟨?_, ?_, ?_⟩
  · intro α _ s hreach
    have hInv := RingBuffer.reachable_Inv s hreach
    obtain ⟨hlen, hC0, hland, hCW, hhW, htW, hle⟩ := hInv
    refine ⟨hle, ?_, ?_⟩
    · simp [RingBuffer.Empty, RingBuffer.Size]
    · simp [RingBuffer.Full, RingBuffer.Size]
  · intro α s data count hInv
    exact (RingBuffer.push_Inv_any s data count hInv).2.2.2.2.2.2
  · intro α s destNull count hInv
    exact (RingBuffer.pop_Inv_any s destNull count hInv).2.2.2.2.2.2

/-- Witness for C5 on a concrete reachable state: capacity 4 after one push
of two elements. -/
theorem C5_cursor_difference_invariant_witness :
    usub (RingBuffer.Push
        (RingBuffer.Initialize (RingBuffer.mk0 : RingBuffer Nat) 4).1
        (some [1, 2]) 2).1.head
      (RingBuffer.Push
        (RingBuffer.Initialize (RingBuffer.mk0 : RingBuffer Nat) 4).1
        (some [1, 2]) 2).1.tail
      ≤ (RingBuffer.Push
        (RingBuffer.Initialize (RingBuffer.mk0 : RingBuffer Nat) 4).1
        (some [1, 2]) 2).1.capacity :=
  (C5_cursor_difference_invariant.1 Nat _
    (RingBuffer.Reachable.push _ (some [1, 2]) 2
      (RingBuffer.Reachable.init 4 (by decide) (by decide)))).1

/-! ### AudioPipeline::Run (src/audio_pipeline.cpp) -/

/-- Why the `AudioPipeline::Run` loop exited. -/
inductive ExitReason where
  | endOfStream
  | stopRequested
  | pushFailed
  | writeFailed
  deriving DecidableEq

/-- Outcome of a pipeline run: the final analysis ring buffer, the final
value of the `running_` flag, why the loop exited, and at which iteration
(number of decoder chunks fully processed before exit). -/
structure PipelineResult (α : Type) where
  buffer : RingBuffer α
  running : Bool
  reason : ExitReason
  iterations : Nat
  deriving DecidableEq

/-- The `AudioPipeline::Run` loop, generic in the PCM scalar type (`float`
in the C++).  `frame_size` is `decoder_.frame_size()`; `reads` is the list
of successive decoder chunks (`bytes_read`, buffer contents) — an exhausted
list models `Read` returning `false` (end of stream or decode error);
`stopAt i` tells whether an external `Stop()` cleared `running_` before
iteration `i`; `writeOk i` is the result of the `WriteStream` call of
iteration `i`.  Each iteration computes `frames = bytes_read / frame_size`,
pushes `frames * 2` scalars into the analysis ring buffer and breaks
immediately if the push or the write fails; after the loop `running_` is
set to `false`. -/
def pipelineRun {α : Type} (frame_size : Nat) (stopAt writeOk : Nat → Bool) :
    RingBuffer α → List (Nat × List α) → Nat → PipelineResult α
  | buf, [], i => ⟨buf, false, ExitReason.endOfStream, i⟩
  | buf, r :: rest, i =>
      if stopAt i then ⟨buf, false, ExitReason.stopRequested, i⟩
      else
        let frames := r.1 / frame_size
        let p := RingBuffer.Push buf (some r.2) (frames * 2)
        if p.2 = false then ⟨p.1, false, ExitReason.pushFailed, i⟩
        else if writeOk i = false then ⟨p.1, false, ExitReason.writeFailed, i⟩
        else pipelineRun frame_size stopAt writeOk p.1 rest (i + 1)

/-- C8: a failed push of the `frames × 2` scalars into the analysis queue,
or a failed write to the device-output sink, stops the pipeline at that very
iteration (nothing further is consumed), and on every exit path — push
failure, write failure, end-of-stream or external stop — the coordinator's
running flag ends up `false`. -/
theorem C8_pipeline_stops_on_failure :
    (∀ (α : Type) (frame_size : Nat) (stopAt writeOk : Nat → Bool)
      (buf : RingBuffer α) (reads : List (Nat × List α)) (i : Nat),
      (pipelineRun frame_size stopAt writeOk buf reads i).running = false) ∧
    (∀ (α : Type) (frame_size : Nat) (stopAt writeOk : Nat → Bool)
      (buf : RingBuffer α) (r : Nat × List α)
      (rest : List (Nat × List α)) (i : Nat),
      stopAt i = false →
      (RingBuffer.Push buf (some r.2) ((r.1 / frame_size) * 2)).2 = false →
      pipelineRun frame_size stopAt writeOk buf (r :: rest) i
        = ⟨(RingBuffer.Push buf (some r.2) ((r.1 / frame_size) * 2)).1,
           false, ExitReason.pushFailed, i⟩) ∧
    (∀ (α : Type) (frame_size : Nat) (stopAt writeOk : Nat → Bool)
      (buf : RingBuffer α) (r : Nat × List α)
      (rest : List (Nat × List α)) (i : Nat),
      stopAt i = false →
      (RingBuffer.Push buf (some r.2) ((r.1 / frame_size) * 2)).2 = true →
      writeOk i = false →
      pipelineRun frame_size stopAt writeOk buf (r :: rest) i
        = ⟨(RingBuffer.Push buf (some r.2) ((r.1 / frame_size) * 2)).1,
           false, ExitReason.writeFailed, i⟩) := by
  refine ⟨?_, ?_, ?_⟩
  · intro α frame_size stopAt writeOk buf reads
    induction reads generalizing buf with
    | nil => intro i; rfl
    | cons r rest ih =>
        intro i
        by_cases hstop : stopAt i
        · simp [pipelineRun, hstop]
        · by_cases hpush :
            (RingBuffer.Push buf (some r.2) ((r.1 / frame_size) * 2)).2
          · by_cases hwrite : writeOk i
            · simp [pipelineRun, hstop, hpush, hwrite, ih]
            · simp [pipelineRun, hstop, hpush, hwrite]
          · simp [pipelineRun, hstop, hpush]
  · intro α frame_size stopAt writeOk buf r rest i hstop hpush
    simp [pipelineRun, hstop, hpush]
  · intro α frame_size stopAt writeOk buf r rest i hstop hpush hwrite
    simp [pipelineRun, hstop, hpush, hwrite]

/-- Witness for C8: a capacity-2 analysis queue cannot accept the 4 scalars
of a 2-frame chunk (8 bytes at frame size 2 in the scalar model), so the
pipeline stops at iteration 0 with a push failure, running flag false,
leaving the second chunk unread. -/
theorem C8_pipeline_stops_on_failure_witness :
    ((fun _ : Nat => false) 0 = false ∧
     (RingBuffer.Push
        (RingBuffer.Initialize (RingBuffer.mk0 : RingBuffer Nat) 2).1
        (some [1, 2, 3, 4]) (((8 : Nat) / 2) * 2)).2 = false) ∧
    pipelineRun 2 (fun _ => false) (fun _ => true)
      (RingBuffer.Initialize (RingBuffer.mk0 : RingBuffer Nat) 2).1
      [(8, [1, 2, 3, 4]), (8, [5, 6, 7, 8])] 0
      = ⟨(RingBuffer.Push
            (RingBuffer.Initialize (RingBuffer.mk0 : RingBuffer Nat) 2).1
            (some [1, 2, 3, 4]) (((8 : Nat) / 2) * 2)).1,
         false, ExitReason.pushFailed, 0⟩ :=
  ⟨⟨rfl, by decide⟩,
   C8_pipeline_stops_on_failure.2.1 Nat 2 (fun _ => false) (fun _ => true)
     (RingBuffer.Initialize (RingBuffer.mk0 : RingBuffer Nat) 2).1
     (8, [1, 2, 3, 4]) [(8, [5, 6, 7, 8])] 0 rfl (by decide)⟩

/-! ### Analysis math (src/analysis_thread.cpp), floats modelled as reals -/

namespace analysis

/-- `analysis::kChannels` (include/analysis_constants.h). -/
def kChannels : Nat := 2

/-- `analysis::kFftSize`. -/
def kFftSize : Nat := 512

/-- `analysis::kFftBinCount = kFftSize / 2`. -/
def kFftBinCount : Nat := kFftSize / 2

end analysis

/-- `kFftSizeInverse = 1.0F / kFftSize` (exactly representable, so the real
model is exact). -/
noncomputable def kFftSizeInverse : ℝ := 1 / (analysis.kFftSize : ℝ)

/-- `kEnergyThreshold = 0.1F` (the float rounding of 0.1 does not affect any
strict-inequality claim proved here). -/
noncomputable def kEnergyThreshold : ℝ := 0.1

/-- `AnalysisThread::CalculateRms`: accumulate the squares of each channel
over the window, take `sqrt(sum / kFftSize)` per channel, and average the
two channels. -/
noncomputable def calculateRms (left right : Nat → ℝ) : ℝ :=
  let rms_left := (List.range analysis.kFftSize).foldl
    (fun acc i => acc + left i * left i) 0
  let rms_right := (List.range analysis.kFftSize).foldl
    (fun acc i => acc + right i * right i) 0
  (Real.sqrt (rms_left / (analysis.kFftSize : ℝ))
    + Real.sqrt (rms_right / (analysis.kFftSize : ℝ)))
    / (analysis.kChannels : ℝ)

/-- `AnalysisThread::CalculateStereoCorrelation`: accumulate
`left[i] * right[i]` over the window and scale by `kFftSizeInverse`. -/
noncomputable def calculateStereoCorrelation (left right : Nat → ℝ) : ℝ :=
  ((List.range analysis.kFftSize).foldl
    (fun acc i => acc + left i * right i) 0) * kFftSizeInverse

/-- The magnitude `sqrt(re² + im²)` of FFT output bin `i`. -/
noncomputable def binMagnitude (output : Nat → ℝ × ℝ) (i : Nat) : ℝ :=
  Real.sqrt ((output i).1 * (output i).1 + (output i).2 * (output i).2)

/-- One iteration of the `CalculateBandwidth` scan: if the bin's magnitude
exceeds the threshold, record its frequency `i * sample_rate * kFftSizeInverse`
as the new maximum and — if still unset (negative sentinel) — as the
minimum. -/
noncomputable def bandwidthStep (sample_rate : ℝ) (output : Nat → ℝ × ℝ)
    (mm : ℝ × ℝ) (i : Nat) : ℝ × ℝ :=
  if binMagnitude output i > kEnergyThreshold then
    let freq := (i : ℝ) * sample_rate * kFftSizeInverse
    (if mm.1 < 0 then freq else mm.1, freq)
  else mm

/-- `AnalysisThread::CalculateBandwidth`: scan bins `0 .. kFftBinCount - 1`
starting from the `(-1, -1)` sentinel pair and return `max_freq - min_freq`. -/
noncomputable def calculateBandwidth (sample_rate : ℝ)
    (output : Nat → ℝ × ℝ) : ℝ :=
  let mm := (List.range analysis.kFftBinCount).foldl
    (bandwidthStep sample_rate output) (-1, -1)
  mm.2 - mm.1

/-- `AnalysisThread::CalculateAverageBandwidth`: the mean of the two
channels' bandwidths. -/
noncomputable def calculateAverageBandwidth (sample_rate : ℝ)
    (output_left output_right : Nat → ℝ × ℝ) : ℝ :=
  (calculateBandwidth sample_rate output_left
    + calculateBandwidth sample_rate output_right) / (analysis.kChannels : ℝ)

/-- Modelled from the spec: §4.2 — `FftwWrapper::Execute` wraps the external
FFTW real-to-complex transform, whose implementation is not part of this
repository; it is modelled as the standard discrete Fourier transform,
bin `k` being `∑_j x_j · e^(-2πi·jk/N)` over the `kFftSize`-sample window. -/
noncomputable def dft (x : Nat → ℝ) (k : Nat) : ℝ × ℝ :=
  (∑ j ∈ Finset.range analysis.kFftSize,
      x j * Real.cos (2 * Real.pi * (k * j) / (analysis.kFftSize : ℝ)),
   -∑ j ∈ Finset.range analysis.kFftSize,
      x j * Real.sin (2 * Real.pi * (k * j) / (analysis.kFftSize : ℝ)))

/-- De-interleaving of `AnalysisThread::Run`: sample `2i` goes to the left
channel. -/
def splitLeft (interleaved : Nat → ℝ) : Nat → ℝ :=
  fun i => interleaved (2 * i)

/-- De-interleaving of `AnalysisThread::Run`: sample `2i + 1` goes to the
right channel. -/
def splitRight (interleaved : Nat → ℝ) : Nat → ℝ :=
  fun i => interleaved (2 * i + 1)

/-- The scalar metrics (RMS, stereo correlation, average bandwidth)
published by one iteration of `AnalysisThread::Run` on an interleaved
window. -/
noncomputable def analysisIteration (sample_rate : ℝ)
    (interleaved : Nat → ℝ) : ℝ × ℝ × ℝ :=
  (calculateRms (splitLeft interleaved) (splitRight interleaved),
   calculateStereoCorrelation (splitLeft interleaved)
     (splitRight interleaved),
   calculateAverageBandwidth sample_rate (dft (splitLeft interleaved))
     (dft (splitRight interleaved)))

/-! ### Lemmas about the accumulation loops -/

theorem foldl_add_eq_sum (f : Nat → ℝ) :
    ∀ (l : List Nat) (b : ℝ),
      l.foldl (fun acc i => acc + f i) b = b + (l.map f).sum := by
  intro l
  induction l with
  | nil => intro b; simp
  | cons x xs ih =>
      intro b
      simp only [List.foldl_cons, List.map_cons, List.sum_cons, ih,
        add_assoc]

theorem foldl_add_range_eq_sum (f : Nat → ℝ) (n : Nat) :
    (List.range n).foldl (fun acc i => acc + f i) 0
      = ∑ i ∈ Finset.range n, f i := by
  rw [foldl_add_eq_sum, zero_add]
  induction n with
  | zero => simp
  | succ n ih =>
      rw [List.range_succ, List.map_append, List.sum_append,
        Finset.sum_range_succ, ih]
      simp

theorem bandwidthFold_no_hit (sr : ℝ) (out : Nat → ℝ × ℝ) :
    ∀ (l : List Nat) (mm : ℝ × ℝ),
      (∀ i ∈ l, ¬ binMagnitude out i > kEnergyThreshold) →
      l.foldl (bandwidthStep sr out) mm = mm := by
  intro l
  induction l with
  | nil => intro mm _; rfl
  | cons x xs ih =>
      intro mm h
      rw [List.foldl_cons,
        show bandwidthStep sr out mm x = mm from by
          simp [bandwidthStep, h x (by simp)]]
      exact ih mm fun i hi => h i (by simp [hi])

theorem bandwidthFold_fst_stable (sr : ℝ) (out : Nat → ℝ × ℝ) :
    ∀ (l : List Nat) (mm : ℝ × ℝ), 0 ≤ mm.1 →
      (l.foldl (bandwidthStep sr out) mm).1 = mm.1 := by
  intro l
  induction l with
  | nil => intro mm _; rfl
  | cons x xs ih =>
      intro mm h
      rw [List.foldl_cons]
      by_cases hx : binMagnitude out x > kEnergyThreshold
      · rw [show bandwidthStep sr out mm x
            = (mm.1, (x : ℝ) * sr * kFftSizeInverse) from by
          simp [bandwidthStep, hx, not_lt.mpr h]]
        exact ih _ h
      · rw [show bandwidthStep sr out mm x = mm from by
          simp [bandwidthStep, hx]]
        exact ih mm h

/-- Characterization of the `CalculateBandwidth` scan when at least one bin
exceeds the threshold: `min_freq` ends at the frequency of the first
above-threshold bin `lo`, `max_freq` at that of the last one `hi`. -/
theorem bandwidthFold_char (sr : ℝ) (out : Nat → ℝ × ℝ) (n lo hi : Nat)
    (hsr : 0 ≤ sr) (hlohi : lo ≤ hi) (hhin : hi < n)
    (hlo : binMagnitude out lo > kEnergyThreshold)
    (hhi : binMagnitude out hi > kEnergyThreshold)
    (hbefore : ∀ i, i < lo → ¬ binMagnitude out i > kEnergyThreshold)
    (hafter : ∀ i, hi < i → i < n →
      ¬ binMagnitude out i > kEnergyThreshold) :
    (List.range n).foldl (bandwidthStep sr out) (-1, -1)
      = ((lo : ℝ) * sr * kFftSizeInverse,
         (hi : ℝ) * sr * kFftSizeInverse) := by
  have hfreqlo : (0 : ℝ) ≤ (lo : ℝ) * sr * kFftSizeInverse := by
    apply mul_nonneg (mul_nonneg (Nat.cast_nonneg lo) hsr)
    rw [kFftSizeInverse]
    positivity
  have hstep0 : bandwidthStep sr out (-1, -1) lo
      = ((lo : ℝ) * sr * kFftSizeInverse,
         (lo : ℝ) * sr * kFftSizeInverse) := by
    simp only [bandwidthStep, if_pos hlo]
    norm_num
  have hdec1 : List.range n = List.range' 0 lo ++ List.range' lo (n - lo) := by
    have h := List.range'_append 0 lo (n - lo) 1
    rw [show 0 + 1 * lo = lo by omega, show n - lo + lo = n by omega] at h
    rw [List.range_eq_range', ← h]
  have hdec2 : List.range' lo (n - lo)
      = List.range' lo (hi - lo) ++ List.range' hi (n - hi) := by
    have h := List.range'_append lo (hi - lo) (n - hi) 1
    rw [show lo + 1 * (hi - lo) = hi by omega,
      show n - hi + (hi - lo) = n - lo by omega] at h
    rw [← h]
  have hdec3 : List.range' hi (n - hi)
      = hi :: List.range' (hi + 1) (n - hi - 1) := by
    conv_lhs => rw [show n - hi = (n - hi - 1) + 1 by omega]
    rw [List.range'_succ]
  rw [hdec1, hdec2, hdec3, List.foldl_append, List.foldl_append]
  rw [bandwidthFold_no_hit sr out (List.range' 0 lo) (-1, -1) (by
    intro i hmem
    rw [List.mem_range'] at hmem
    obtain ⟨j, hj, rfl⟩ := hmem
    exact hbefore _ (by omega))]
  by_cases hcase : lo = hi
  · subst hcase
    rw [show lo - lo = 0 by omega, List.range'_zero, List.foldl_nil,
      List.foldl_cons, hstep0]
    exact bandwidthFold_no_hit sr out _ _ (by
      intro i hmem
      rw [List.mem_range'] at hmem
      obtain ⟨j, hj, rfl⟩ := hmem
      exact hafter _ (by omega) (by omega))
  · conv_lhs => rw [show hi - lo = (hi - lo - 1) + 1 by omega]
    rw [List.range'_succ, List.foldl_cons, List.foldl_cons, hstep0]
    set mmB := (List.range' (lo + 1) (hi - lo - 1)).foldl
      (bandwidthStep sr out)
      ((lo : ℝ) * sr * kFftSizeInverse,
       (lo : ℝ) * sr * kFftSizeInverse) with hmmB
    have hfst : mmB.1 = (lo : ℝ) * sr * kFftSizeInverse :=
      bandwidthFold_fst_stable sr out _ _ (by simpa using hfreqlo)
    have hstepHi : bandwidthStep sr out mmB hi
        = ((lo : ℝ) * sr * kFftSizeInverse,
           (hi : ℝ) * sr * kFftSizeInverse) := by
      simp only [bandwidthStep, if_pos hhi]
      rw [if_neg (by rw [hfst]; exact not_lt.mpr hfreqlo), hfst]
    rw [hstepHi]
    exact bandwidthFold_no_hit sr out _ _ (by
      intro i hmem
      rw [List.mem_range'] at hmem
      obtain ⟨j, hj, rfl⟩ := hmem
      exact hafter _ (by omega) (by omega))

/-- The RMS accumulation loop in closed (summation) form. -/
theorem calculateRms_eq (left right : Nat → ℝ) :
    calculateRms left right
      = (Real.sqrt ((∑ i ∈ Finset.range analysis.kFftSize, left i * left i)
            / (analysis.kFftSize : ℝ))
        + Real.sqrt ((∑ i ∈ Finset.range analysis.kFftSize,
              right i * right i) / (analysis.kFftSize : ℝ)))
        / (analysis.kChannels : ℝ) := by
  unfold calculateRms
  rw [foldl_add_range_eq_sum fun i => left i * left i,
    foldl_add_range_eq_sum fun i => right i * right i]

/-- The correlation accumulation loop in closed (summation) form. -/
theorem calculateStereoCorrelation_eq (left right : Nat → ℝ) :
    calculateStereoCorrelation left right
      = (∑ i ∈ Finset.range analysis.kFftSize, left i * right i)
        * kFftSizeInverse := by
  unfold calculateStereoCorrelation
  rw [foldl_add_range_eq_sum fun i => left i * right i]

/-- The DFT of the all-zero window is zero in every bin. -/
theorem dft_zero (k : Nat) : dft (fun _ => 0) k = (0, 0) := by
  unfold dft
  simp

/-- On an all-zero frequency output no bin exceeds the threshold, so both
bounds stay at the `-1` sentinel and the bandwidth is `-1 - (-1) = 0`. -/
theorem calculateBandwidth_zero_output (sr : ℝ) :
    calculateBandwidth sr (fun _ => ((0 : ℝ), (0 : ℝ))) = 0 := by
  unfold calculateBandwidth
  rw [bandwidthFold_no_hit sr _ _ _ (by
    intro i _
    unfold binMagnitude
    norm_num [kEnergyThreshold, Real.sqrt_zero])]
  norm_num

/-- All three scalar metrics of the analysis iteration on the all-zero
(silent) window: RMS 0, correlation 0, bandwidth 0. -/
theorem analysisIteration_zero (sample_rate : ℝ) :
    analysisIteration sample_rate (fun _ => 0) = (0, 0, 0) := by
  unfold analysisIteration
  refine Prod.ext ?_ (Prod.ext ?_ ?_)
  · show calculateRms (splitLeft fun _ => 0) (splitRight fun _ => 0) = 0
    rw [show splitLeft (fun _ => (0 : ℝ)) = fun _ => (0 : ℝ) from rfl,
      show splitRight (fun _ => (0 : ℝ)) = fun _ => (0 : ℝ) from rfl,
      calculateRms_eq]
    norm_num [Real.sqrt_zero]
  · show calculateStereoCorrelation (splitLeft fun _ => 0)
      (splitRight fun _ => 0) = 0
    rw [show splitLeft (fun _ => (0 : ℝ)) = fun _ => (0 : ℝ) from rfl,
      show splitRight (fun _ => (0 : ℝ)) = fun _ => (0 : ℝ) from rfl,
      calculateStereoCorrelation_eq]
    norm_num
  · show calculateAverageBandwidth sample_rate (dft (splitLeft fun _ => 0))
      (dft (splitRight fun _ => 0)) = 0
    rw [show splitLeft (fun _ => (0 : ℝ)) = fun _ => (0 : ℝ) from rfl,
      show splitRight (fun _ => (0 : ℝ)) = fun _ => (0 : ℝ) from rfl]
    rw [show dft (fun _ => (0 : ℝ)) = fun _ => ((0 : ℝ), (0 : ℝ)) from
      funext fun k => dft_zero k]
    unfold calculateAverageBandwidth
    rw [calculateBandwidth_zero_output]
    norm_num

/-! ### Claim theorems: analysis math (C2, C6, C7, C10) -/

/-- C2 counterexample: on the all-zero (silent) window the published
bandwidth is NOT negative — both frequency bounds stay at the `-1` sentinel
and `CalculateBandwidth` returns `max_freq - min_freq = -1 - (-1) = 0`, so
the published average bandwidth is `0`. -/
theorem C2_silence_negative_bandwidth_counterexample :
    ¬ ((analysisIteration 44100 (fun _ => 0)).2.2 < 0) := by
  rw [analysisIteration_zero]
  norm_num

/-- C2 (amended): an all-zero (silent) analysis window publishes RMS = 0,
stereo correlation = 0, and bandwidth exactly 0 — no bin magnitude exceeds
the 0.1 threshold, both frequency bounds stay at the `-1` sentinel, and
their difference is 0 (not a negative value). -/
theorem C2_silence_metrics :
    ∀ sample_rate : ℝ,
      analysisIteration sample_rate (fun _ => 0) = (0, 0, 0) :=
  fun sample_rate => analysisIteration_zero sample_rate

/-- C6: the published stereo correlation is `(1/N) · Σ left[i]·right[i]`
(not normalized by standard deviations); with `right = -left` and a nonzero
window it is negative; with `right = left` it equals the mean-square level
and is positive on a nonzero window. -/
theorem C6_stereo_correlation :
    (∀ left right : Nat → ℝ,
      calculateStereoCorrelation left right
        = (1 / (analysis.kFftSize : ℝ))
          * ∑ i ∈ Finset.range analysis.kFftSize, left i * right i) ∧
    (∀ left right : Nat → ℝ,
      (∀ i, right i = -(left i)) →
      (∃ i, i < analysis.kFftSize ∧ left i ≠ 0) →
      calculateStereoCorrelation left right < 0) ∧
    (∀ left : Nat → ℝ,
      calculateStereoCorrelation left left
        = (∑ i ∈ Finset.range analysis.kFftSize, left i * left i)
          / (analysis.kFftSize : ℝ) ∧
      ((∃ i, i < analysis.kFftSize ∧ left i ≠ 0) →
        0 < calculateStereoCorrelation left left)) := by
  have hsum_pos : ∀ left : Nat → ℝ,
      (∃ i, i < analysis.kFftSize ∧ left i ≠ 0) →
      0 < ∑ i ∈ Finset.range analysis.kFftSize, left i * left i := by
    rintro left ⟨i0, hi0, hne⟩
    exact Finset.sum_pos' (fun i _ => mul_self_nonneg _)
      ⟨i0, Finset.mem_range.mpr hi0, mul_self_pos.mpr hne⟩
  refine ⟨?_, ?_, ?_⟩
  · intro left right
    rw [calculateStereoCorrelation_eq, kFftSizeInverse]
    ring
  · intro left right hr hne
    rw [calculateStereoCorrelation_eq]
    have hsum : ∑ i ∈ Finset.range analysis.kFftSize, left i * right i
        = -∑ i ∈ Finset.range analysis.kFftSize, left i * left i := by
      rw [← Finset.sum_neg_distrib]
      refine Finset.sum_congr rfl fun i _ => ?_
      rw [hr i]
      ring
    rw [hsum]
    have hpos := hsum_pos left hne
    have hinv : 0 < kFftSizeInverse := by
      rw [kFftSizeInverse]
      norm_num [analysis.kFftSize]
    exact mul_neg_of_neg_of_pos (by linarith) hinv
  · intro left
    have heq : calculateStereoCorrelation left left
        = (∑ i ∈ Finset.range analysis.kFftSize, left i * left i)
          / (analysis.kFftSize : ℝ) := by
      rw [calculateStereoCorrelation_eq, kFftSizeInverse]
      ring
    refine ⟨heq, fun hne => ?_⟩
    rw [heq]
    exact div_pos (hsum_pos left hne) (by norm_num [analysis.kFftSize])

/-- Witness for C6 on the out-of-phase window `left = 1, right = -1`. -/
theorem C6_stereo_correlation_witness :
    ((∀ i : Nat, (fun _ : Nat => (-1 : ℝ)) i
        = -((fun _ : Nat => (1 : ℝ)) i)) ∧
     (∃ i, i < analysis.kFftSize ∧ (fun _ : Nat => (1 : ℝ)) i ≠ 0)) ∧
    calculateStereoCorrelation (fun _ => (1 : ℝ)) (fun _ => (-1 : ℝ))
      < 0 :=
  ⟨⟨fun i => by norm_num,
    ⟨0, by norm_num [analysis.kFftSize], one_ne_zero⟩⟩,
   C6_stereo_correlation.2.1 (fun _ => (1 : ℝ)) (fun _ => (-1 : ℝ))
     (fun i => by norm_num)
     ⟨0, by norm_num [analysis.kFftSize], one_ne_zero⟩⟩

/-- C7: when `lo` is the lowest and `hi` the highest bin (among the scanned
bins `0 .. N/2 - 1`) whose magnitude `sqrt(re² + im²)` exceeds the 0.1
threshold, the per-channel bandwidth is `hi·sr/N - lo·sr/N`, and the
published bandwidth is the mean of the two channels' values. -/
theorem C7_bandwidth_scan :
    (∀ (sample_rate : ℝ) (output : Nat → ℝ × ℝ) (lo hi : Nat),
      0 ≤ sample_rate → lo ≤ hi → hi < analysis.kFftBinCount →
      binMagnitude output lo > kEnergyThreshold →
      binMagnitude output hi > kEnergyThreshold →
      (∀ i, i < lo → ¬ binMagnitude output i > kEnergyThreshold) →
      (∀ i, hi < i → i < analysis.kFftBinCount →
        ¬ binMagnitude output i > kEnergyThreshold) →
      calculateBandwidth sample_rate output
        = (hi : ℝ) * sample_rate * kFftSizeInverse
          - (lo : ℝ) * sample_rate * kFftSizeInverse) ∧
    (∀ (sample_rate : ℝ) (output_left output_right : Nat → ℝ × ℝ),
      calculateAverageBandwidth sample_rate output_left output_right
        = (calculateBandwidth sample_rate output_left
          + calculateBandwidth sample_rate output_right) / 2) := by
  constructor
  · intro sr output lo hi hsr hlohi hhin hlo hhi hbefore hafter
    unfold calculateBandwidth
    rw [bandwidthFold_char sr output analysis.kFftBinCount lo hi hsr hlohi
      hhin hlo hhi hbefore hafter]
  · intro sr output_left output_right
    unfold calculateAverageBandwidth
    norm_num [analysis.kChannels]

/-- Witness for C7: a single above-threshold bin at index 3 with sample
rate 48000. -/
theorem C7_bandwidth_scan_witness :
    ((0 : ℝ) ≤ 48000 ∧
     binMagnitude (fun i => if i = 3 then ((1 : ℝ), (0 : ℝ)) else (0, 0)) 3
       > kEnergyThreshold ∧
     (∀ i, i < 3 → ¬ binMagnitude
       (fun i => if i = 3 then ((1 : ℝ), (0 : ℝ)) else (0, 0)) i
       > kEnergyThreshold) ∧
     (∀ i, 3 < i → i < analysis.kFftBinCount → ¬ binMagnitude
       (fun i => if i = 3 then ((1 : ℝ), (0 : ℝ)) else (0, 0)) i
       > kEnergyThreshold)) ∧
    calculateBandwidth 48000
      (fun i => if i = 3 then ((1 : ℝ), (0 : ℝ)) else (0, 0))
      = (3 : ℝ) * 48000 * kFftSizeInverse
        - (3 : ℝ) * 48000 * kFftSizeInverse := by
  have hmag3 : binMagnitude
      (fun i => if i = 3 then ((1 : ℝ), (0 : ℝ)) else (0, 0)) 3
      > kEnergyThreshold := by
    unfold binMagnitude
    norm_num [kEnergyThreshold, Real.sqrt_one]
  have hmagne : ∀ i, i ≠ 3 → ¬ binMagnitude
      (fun i => if i = 3 then ((1 : ℝ), (0 : ℝ)) else (0, 0)) i
      > kEnergyThreshold := by
    intro i hi
    unfold binMagnitude
    norm_num [kEnergyThreshold, hi, Real.sqrt_zero]
  refine ⟨⟨by norm_num, hmag3, fun i hilt => hmagne i (by omega),
    fun i hgt _ => hmagne i (by omega)⟩, ?_⟩
  exact C7_bandwidth_scan.1 48000
    (fun i => if i = 3 then ((1 : ℝ), (0 : ℝ)) else (0, 0)) 3 3
    (by norm_num) le_rfl (by norm_num [analysis.kFftBinCount,
      analysis.kFftSize]) hmag3 hmag3
    (fun i hilt => hmagne i (by omega))
    (fun i hgt _ => hmagne i (by omega))

/-- C10: if exactly one scanned bin's magnitude exceeds the 0.1 threshold,
the lowest and highest above-threshold frequencies coincide there, and
`CalculateBandwidth` returns exactly 0 for that channel. -/
theorem C10_single_bin_bandwidth_zero :
    ∀ (sample_rate : ℝ) (output : Nat → ℝ × ℝ) (i0 : Nat),
      0 ≤ sample_rate → i0 < analysis.kFftBinCount →
      binMagnitude output i0 > kEnergyThreshold →
      (∀ j, j < analysis.kFftBinCount →
        binMagnitude output j > kEnergyThreshold → j = i0) →
      calculateBandwidth sample_rate output = 0 := by
  intro sr output i0 hsr hi0 hmag huniq
  unfold calculateBandwidth
  rw [bandwidthFold_char sr output analysis.kFftBinCount i0 i0 hsr le_rfl
    hi0 hmag hmag
    (fun i hilt hgt => by
      have := huniq i (by omega) hgt
      omega)
    (fun i hgt hlt hmag' => by
      have := huniq i hlt hmag'
      omega)]
  dsimp only
  ring

/-- Witness for C10: the single above-threshold bin at index 5 yields
bandwidth 0. -/
theorem C10_single_bin_bandwidth_zero_witness :
    ((0 : ℝ) ≤ 44100 ∧
     binMagnitude (fun i => if i = 5 then ((0 : ℝ), (1 : ℝ)) else (0, 0)) 5
       > kEnergyThreshold ∧
     (∀ j, j < analysis.kFftBinCount → binMagnitude
       (fun i => if i = 5 then ((0 : ℝ), (1 : ℝ)) else (0, 0)) j
       > kEnergyThreshold → j = 5)) ∧
    calculateBandwidth 44100
      (fun i => if i = 5 then ((0 : ℝ), (1 : ℝ)) else (0, 0)) = 0 := by
  have hmag5 : binMagnitude
      (fun i => if i = 5 then ((0 : ℝ), (1 : ℝ)) else (0, 0)) 5
      > kEnergyThreshold := by
    unfold binMagnitude
    norm_num [kEnergyThreshold, Real.sqrt_one]
  have huniq : ∀ j, j < analysis.kFftBinCount → binMagnitude
      (fun i => if i = 5 then ((0 : ℝ), (1 : ℝ)) else (0, 0)) j
      > kEnergyThreshold → j = 5 := by
    intro j _ hj
    by_contra hne
    rw [show binMagnitude
        (fun i => if i = 5 then ((0 : ℝ), (1 : ℝ)) else (0, 0)) j
        = Real.sqrt ((0 : ℝ) * 0 + 0 * 0) from by
      unfold binMagnitude
      simp [hne]] at hj
    norm_num [kEnergyThreshold, Real.sqrt_zero] at hj
  refine ⟨⟨by norm_num, hmag5, huniq⟩, ?_⟩
  exact C10_single_bin_bandwidth_zero 44100
    (fun i => if i = 5 then ((0 : ℝ), (1 : ℝ)) else (0, 0)) 5
    (by norm_num) (by norm_num [analysis.kFftBinCount, analysis.kFftSize])
    hmag5 huniq

/-! ### AnalysisData (src/analysis_data.cpp) -/

/-- The five fields guarded by `AnalysisData`'s mutex, generic in the scalar
type (`float` in the C++; the spectra are `std::array<float, kFftBinCount>`,
modelled as lists). -/
structure AnalysisData (α : Type) where
  rms : α
  correlation : α
  bandwidth : α
  spectrum_left : List α
  spectrum_right : List α
  deriving DecidableEq

/-- `AnalysisData::Set`: under the `scoped_lock` all five fields are
replaced in one critical section.  Since `Set` and `Get` both hold the same
mutex for their whole body, concurrent executions serialize; each call is
therefore modelled as one atomic step on the record. -/
def AnalysisData.Set {α : Type} (d : AnalysisData α)
    (rms correlation bandwidth : α)
    (spectrum_left spectrum_right : List α) : AnalysisData α :=
  { d with rms := rms, correlation := correlation, bandwidth := bandwidth,
           spectrum_left := spectrum_left,
           spectrum_right := spectrum_right }

/-- `AnalysisData::Get`: under the same mutex all five fields are copied
out as one bundle. -/
def AnalysisData.Get {α : Type} (d : AnalysisData α) :
    α × α × α × List α × List α :=
  (d.rms, d.correlation, d.bandwidth, d.spectrum_left, d.spectrum_right)

/-- Apply a serialized history of `Set` calls (each given by its five
arguments) to a starting snapshot. -/
def applySets {α : Type} (d0 : AnalysisData α) :
    List (α × α × α × List α × List α) → AnalysisData α
  | [] => d0
  | t :: rest =>
      applySets (d0.Set t.1 t.2.1 t.2.2.1 t.2.2.2.1 t.2.2.2.2) rest

/-- C9: `Set` replaces all five fields in a single critical section and
`Get` copies all five out under the same guard, so (with the mutex
serializing the calls) a `Get` returns exactly the complete five-field
bundle of the most recent `Set` — or the initial snapshot if none — never
a mixture of two different `Set` calls. -/
theorem C9_snapshot_atomicity :
    (∀ (α : Type) (d : AnalysisData α) (rms correlation bandwidth : α)
      (spectrum_left spectrum_right : List α),
      (d.Set rms correlation bandwidth spectrum_left spectrum_right).Get
        = (rms, correlation, bandwidth, spectrum_left, spectrum_right)) ∧
    (∀ (α : Type) (d0 : AnalysisData α)
      (pre : List (α × α × α × List α × List α))
      (t : α × α × α × List α × List α),
      (applySets d0 (pre ++ [t])).Get = t) ∧
    (∀ (α : Type) (d0 : AnalysisData α), (applySets d0 []).Get = d0.Get) := by
  refine ⟨?_, ?_, ?_⟩
  · intro α d rms correlation bandwidth spectrum_left spectrum_right
    rfl
  · intro α d0 pre t
    induction pre generalizing d0 with
    | nil => rfl
    | cons p pre ih => exact ih _
  · intro α d0
    rfl
